import Mathlib

/-!
Shallow embedding of the doubledecker operation-pipeline execution engine
(src/server/executor.rs, src/utils/helpers.rs, src/server/core.rs,
src/utils/statics.rs, src/utils/error.rs) together with theorems settling
the frozen claims about it.

Machine values are embedded as follows: 64-bit column values never overflow
in any operation the engine performs (no arithmetic on integer columns is
modelled beyond what DataFusion coerces to floats), so integers are `Int`.
An `f64` is embedded as `FloatVal`: a finite double is represented by its
exact rational value, and the non-finite doubles (NaN, +inf, -inf) are
explicit constructors; no claim depends on rounding of finite doubles.
Fallible Rust functions returning `Result` become `Except`.
-/

namespace Doubledecker

/-- Model of an `f64` value: either finite (carried exactly as a rational)
or one of the three non-finite doubles. -/
inductive FloatVal : Type
  | finite (q : ℚ)
  | nan
  | inf
  | negInf
deriving DecidableEq, Repr

/-- A cell of a column (Arrow array element): the engine's column value
types per the data model — 64-bit integer, 64-bit float, boolean, string,
and a per-cell null marker. -/
inductive CellValue : Type
  | null
  | int (i : ℤ)
  | float (f : FloatVal)
  | bool (b : Bool)
  | str (s : String)
deriving DecidableEq, Repr

/-- `FilterOp` from src/utils/statics.rs. -/
inductive FilterOp : Type
  | eq | ne | gt | ge | lt | le | contains
deriving DecidableEq, Repr

/-- `AggFunc` from src/utils/statics.rs. -/
inductive AggFunc : Type
  | sum | avg | max | min | count
deriving DecidableEq, Repr

/-- `Aggregation` from src/utils/statics.rs (`alias` is a Lean keyword, so
that field is named `aliasName` here). -/
structure Aggregation : Type where
  function : AggFunc
  column : String
  aliasName : Option String
deriving DecidableEq, Repr

/-- `TransformOp` from src/utils/statics.rs. -/
inductive TransformOp : Type
  | multiply | divide | add | subtract
deriving DecidableEq, Repr

/-- `Operations` from src/utils/statics.rs.  The `Transform` value is an
`f64` scalar supplied via JSON, hence finite; it is carried as its exact
rational value. -/
inductive Operations : Type
  | select (columns : List String)
  | filter (column : String) (operator : FilterOp) (value : String)
  | groupBy (columns : List String) (aggregations : List Aggregation)
  | sort (column : String) (ascending : Bool)
  | limit (count : Nat)
  | transform (column : String) (operation : TransformOp) (value : ℚ) (aliasName : String)
deriving DecidableEq, Repr

/-- The DataFusion errors the executor can produce: `DataFusionError::Plan`
(used verbatim by the GroupBy validation in src/server/executor.rs) and the
schema errors DataFusion raises when an operation references an absent
column. -/
inductive DfError : Type
  | plan (msg : String)
  | schema (msg : String)
deriving DecidableEq, Repr

/-- `Display` of the modelled `DataFusionError` variants (DataFusion renders
`Plan` errors as `Error during planning: {msg}` and schema errors as
`Schema error: {msg}`); used by `core.rs` when wrapping executor failures. -/
def dfErrorToString : DfError → String
  | .plan msg => "Error during planning: " ++ msg
  | .schema msg => "Schema error: " ++ msg

/-- `DoubledeckerError` from src/utils/error.rs (payloads that the engine
claims never inspect are kept as their message strings; database/auth
variants carry their message as well). -/
inductive DoubledeckerError : Type
  | fileUpload (msg : String)
  | multipartError (msg : String)
  | invalidFilePath
  | s3Error (msg : String)
  | dataFusionError (msg : String)
  | columnNotFound (msg : String)
  | tableNotFound (msg : String)
  | queryExecution (msg : String)
  | invalidQuery (msg : String)
  | databaseError (msg : String)
  | authenticationError (msg : String)
  | notFound (msg : String)
  | unauthorized
  | internal (msg : String)
  | badRequest (msg : String)
deriving DecidableEq, Repr

/-- Is the double finite?  `serde_json::Number::from_f64` succeeds exactly
on finite doubles. -/
def FloatVal.isFinite : FloatVal → Bool
  | .finite _ => true
  | _ => false

/-- A JSON value as produced by the result encoder for a single cell
(`serde_json::Value`); rows are arrays of these, kept as Lean lists. -/
inductive JsonValue : Type
  | null
  | num (q : ℚ)
  | bool (b : Bool)
  | str (s : String)
deriving DecidableEq, Repr

/-- `QueryResponse` from src/utils/statics.rs: ordered column-name list plus
rows, each row the JSON array of its cell values. -/
structure QueryResponse : Type where
  columns : List String
  rows : List (List JsonValue)
deriving DecidableEq, Repr

/-- An in-memory table: ordered column names plus rows (each row one cell
per column).  This is the value a DataFusion `DataFrame` denotes once
collected; every pipeline step produces a new `Table`. -/
structure Table : Type where
  header : List String
  rows : List (List CellValue)
deriving DecidableEq, Repr

/-- An Arrow `RecordBatch`: schema field names, the column arrays, and the
row count. -/
structure RecordBatch : Type where
  schema : List String
  columns : List (List CellValue)
  numRows : Nat
deriving DecidableEq, Repr

/-- Index of the first column with the given name, if present
(`DFSchema` field lookup by unqualified name). -/
def colIdx : List String → String → Option Nat
  | [], _ => none
  | h :: t, c => if h = c then some 0 else (colIdx t c).map (· + 1)

/-- Cell of a row at a column index (in-range by construction in the
engine; out-of-range reads default to null so the function is total). -/
def cellAt (r : List CellValue) (j : Nat) : CellValue :=
  r.getD j .null

instance {ε α : Type} [DecidableEq ε] [DecidableEq α] : DecidableEq (Except ε α) := fun x y =>
  match x, y with
  | .ok a, .ok b =>
    if h : a = b then .isTrue (by rw [h]) else .isFalse (by simp [h])
  | .error e, .error f =>
    if h : e = f then .isTrue (by rw [h]) else .isFalse (by simp [h])
  | .ok _, .error _ => .isFalse (by simp)
  | .error _, .ok _ => .isFalse (by simp)

/-- Sequencing of a fallible map, mirroring a Rust loop whose body ends in
`?`: stops at the first error. -/
def mapExcept (f : α → Except ε β) : List α → Except ε (List β)
  | [] => .ok []
  | a :: as_ =>
    match f a with
    | .error e => .error e
    | .ok b =>
      match mapExcept f as_ with
      | .error e => .error e
      | .ok bs => .ok (b :: bs)

/-- Three-way comparison induced by a linear order. -/
def cmpVia {α : Type} [LinearOrder α] (a b : α) : Ordering :=
  if a < b then .lt else if a = b then .eq else .gt

/-- `true` unless the comparison came out `gt`; turns a three-way
comparison into a `≤` test. -/
def leOfCmp : Ordering → Bool
  | .gt => false
  | _ => true

/-! ### The Rust `str::parse::<f64>` model

`build_filter_expr` (src/utils/helpers.rs) decides between a numeric and a
string literal by `value.parse::<f64>()`.  The accepted grammar is
`[+-]? ( inf | infinity | nan | dec )` (the keywords case-insensitive) with
`dec = digits [. digits?] exp? | . digits exp?` and `exp = (e|E) [+-]? digits`.
The numeric value of a decimal literal is modelled exactly (as a rational)
rather than rounded to the nearest double; no claim depends on rounding. -/

/-- Numeric value of a digit run (most significant first). -/
def digitsToNat (ds : List Char) : ℕ :=
  ds.foldl (fun n c => 10 * n + (c.toNat - 48)) 0

/-- The rational `(m / 10^fl) * 10^k` (mantissa with `fl` fractional digits,
decimal exponent `k`), built with `mkRat` so the value reduces in the
kernel (the field operations on `ℚ` are `@[irreducible]`). -/
def decScaled (m : ℤ) (fl : ℕ) (k : ℤ) : ℚ :=
  match k with
  | .ofNat n => mkRat (m * (10 : ℤ) ^ n) ((10 : ℕ) ^ fl)
  | .negSucc n => mkRat m ((10 : ℕ) ^ (fl + (n + 1)))

/-- Exponent part: after `e`/`E` and an optional sign, a nonempty digit run. -/
def parseExpDigits (ds : List Char) (m : ℤ) (fl : ℕ) (sign : ℤ) : Option ℚ :=
  if ds.isEmpty then none
  else if ds.all (fun c => c.isDigit) then
    some (decScaled m fl (sign * (digitsToNat ds : ℤ)))
  else none

/-- Optional exponent suffix applied to a mantissa of `fl` fractional
digits. -/
def parseExpPart (cs : List Char) (m : ℤ) (fl : ℕ) : Option ℚ :=
  match cs with
  | [] => some (decScaled m fl 0)
  | c :: rest =>
    if c = 'e' ∨ c = 'E' then
      match rest with
      | '+' :: ds => parseExpDigits ds m fl 1
      | '-' :: ds => parseExpDigits ds m fl (-1)
      | ds => parseExpDigits ds m fl 1
    else none

/-- Signed decimal literal after the sign has been stripped: integer
digits, optional fraction, optional exponent; at least one digit must be
present around the point. -/
def parseDec (neg : Bool) (cs : List Char) : Option ℚ :=
  let ip := cs.takeWhile (fun c => c.isDigit)
  let rest := cs.dropWhile (fun c => c.isDigit)
  match rest with
  | '.' :: rest2 =>
    let fp := rest2.takeWhile (fun c => c.isDigit)
    let rest3 := rest2.dropWhile (fun c => c.isDigit)
    if ip.isEmpty ∧ fp.isEmpty then none
    else
      let m : ℕ := digitsToNat ip * 10 ^ fp.length + digitsToNat fp
      parseExpPart rest3 (if neg then -(m : ℤ) else (m : ℤ)) fp.length
  | _ =>
    if ip.isEmpty then none
    else
      let m : ℕ := digitsToNat ip
      parseExpPart rest (if neg then -(m : ℤ) else (m : ℤ)) 0

/-- Model of Rust `value.parse::<f64>()` as used by `build_filter_expr`. -/
def parse_f64 (s : String) : Option FloatVal :=
  let cs := s.data
  let signed : Bool × List Char :=
    match cs with
    | '+' :: r => (false, r)
    | '-' :: r => (true, r)
    | r => (false, r)
  let neg := signed.1
  let body := signed.2
  let lower := body.map Char.toLower
  if lower = "inf".data ∨ lower = "infinity".data then
    some (if neg then .negInf else .inf)
  else if lower = "nan".data then some .nan
  else (parseDec neg body).map (fun q => .finite q)

/-! ### SQL `LIKE` matching

The `Contains` filter arm builds `col LIKE '%value%'` with no escaping
(src/utils/helpers.rs line 26).  `likeMatch` is the standard SQL `LIKE`
semantics DataFusion implements: `%` matches any (possibly empty) character
sequence, `_` matches exactly one character, everything else matches
itself, case-sensitively, with no escape character. -/

/-- Does `f` hold of some suffix of the list (including the full list and
the empty suffix)? -/
def anySuffix (f : List Char → Bool) : List Char → Bool
  | [] => f []
  | c :: t => f (c :: t) || anySuffix f t

/-- SQL `LIKE` pattern matching (pattern, then text). -/
def likeMatch : List Char → List Char → Bool
  | [], t => t.isEmpty
  | a :: p, t =>
    if a = '%' then anySuffix (fun s => likeMatch p s) t
    else
      match t with
      | [] => false
      | c :: t2 => if a = '_' then likeMatch p t2 else a == c && likeMatch p t2

/-- Boolean test: is `v` a prefix of `t`? -/
def prefB : List Char → List Char → Bool
  | [], _ => true
  | _ :: _, [] => false
  | a :: v, c :: t => a == c && prefB v t

/-- Boolean test: does `t` contain `v` as a contiguous substring? -/
def subStrB : List Char → List Char → Bool
  | v, [] => prefB v []
  | v, c :: t => prefB v (c :: t) || subStrB v t

/-- Follows the spec's words for `Contains`: a case-sensitive literal
substring match of the filter value inside the cell's string. -/
def specContains (value cell : String) : Bool :=
  subStrB value.data cell.data

/-! ### Comparators

`cmpFloat` is the comparison DataFusion's binary comparison kernels apply
to doubles (IEEE: any comparison involving NaN is false, modelled as
`none`).  `floatCmpT`/`cellCmp` are the total orders underlying the sort
kernel (Arrow sorts NaN after all other doubles). -/

/-- IEEE partial comparison of doubles: `none` when NaN is involved. -/
def cmpFloat : FloatVal → FloatVal → Option Ordering
  | .nan, _ => none
  | _, .nan => none
  | .finite a, .finite b => some (cmpVia a b)
  | .negInf, .negInf => some .eq
  | .inf, .inf => some .eq
  | .negInf, _ => some .lt
  | _, .negInf => some .gt
  | .inf, _ => some .gt
  | _, .inf => some .lt

/-- Rank of a double in Arrow's total sort order (NaN greatest). -/
def floatRank : FloatVal → ℕ
  | .negInf => 0
  | .finite _ => 1
  | .inf => 2
  | .nan => 3

/-- Total order on doubles used for sorting. -/
def floatCmpT : FloatVal → FloatVal → Ordering
  | .finite a, .finite b => cmpVia a b
  | a, b => cmpVia (floatRank a) (floatRank b)

/-- Rank of a cell value's type; cells of a single column share a type in
any table the engine builds, so the cross-type branch of `cellCmp` only
makes the order total. -/
def cellRank : CellValue → ℕ
  | .null => 0
  | .int _ => 1
  | .float _ => 2
  | .bool _ => 3
  | .str _ => 4

/-- Total comparison of two non-null cells of a column, as the sort kernel
orders them. -/
def cellCmp : CellValue → CellValue → Ordering
  | .int a, .int b => cmpVia a b
  | .float a, .float b => floatCmpT a b
  | .bool a, .bool b => cmpVia a b
  | .str a, .str b => cmpVia a b
  | a, b => cmpVia (cellRank a) (cellRank b)

/-! ### Exact rational arithmetic

Stated through `mkRat`/`Rat.divInt` (instead of the `@[irreducible]` field
operations of `ℚ`) so concrete pipelines evaluate inside the kernel; the
values are the exact rational sums/products/quotients. -/

/-- `a + b` on `ℚ`. -/
def ratAdd (a b : ℚ) : ℚ := mkRat (a.num * (b.den : ℤ) + b.num * (a.den : ℤ)) (a.den * b.den)

/-- `a - b` on `ℚ`. -/
def ratSub (a b : ℚ) : ℚ := mkRat (a.num * (b.den : ℤ) - b.num * (a.den : ℤ)) (a.den * b.den)

/-- `a * b` on `ℚ`. -/
def ratMul (a b : ℚ) : ℚ := mkRat (a.num * b.num) (a.den * b.den)

/-- `a / b` on `ℚ` (zero divisor handled by the callers). -/
def ratDiv (a b : ℚ) : ℚ := Rat.divInt (a.num * (b.den : ℤ)) ((a.den : ℤ) * b.num)

/-! ### Expression/Predicate Builder (src/utils/helpers.rs) -/

/-- The literal a Filter compares against: `build_filter_expr` tries
`value.parse::<f64>()` and falls back to a string literal. -/
inductive FilterLit : Type
  | num (f : FloatVal)
  | str (s : String)
deriving DecidableEq, Repr

/-- The predicate part of the expression `build_filter_expr` returns: a
three-way comparison against the literal, or a `LIKE` pattern for
`Contains`. -/
inductive FilterPred : Type
  | cmp (operator : FilterOp) (lit : FilterLit)
  | like (pattern : String)
deriving DecidableEq, Repr

/-- The filter expression: the referenced column together with the
predicate applied to it. -/
structure FilterExpr : Type where
  column : String
  pred : FilterPred
deriving DecidableEq, Repr

/-- `build_filter_expr` (src/utils/helpers.rs lines 10-28): numeric parse
first, string literal as fallback; `Contains` becomes
`col LIKE '%value%'` with the raw value spliced into the pattern
unescaped.  The Rust function returns `DfResult` but never errors. -/
def build_filter_expr (column : String) (operator : FilterOp) (value : String) :
    Except DfError FilterExpr :=
  let lit : FilterLit :=
    match parse_f64 value with
    | some f => .num f
    | none => .str value
  .ok
    { column := column
      pred :=
        match operator with
        | .contains => .like ("%" ++ value ++ "%")
        | op => .cmp op lit }

/-- Three-way comparison of a cell against a filter literal, as
DataFusion's coerced comparison kernels behave on the engine's column
types: a numeric literal compares numerically against numeric cells
(integer cells coerced to doubles); a string literal compares
lexicographically against string cells; `none` (SQL NULL, the row is
dropped) for a null cell, a NaN, or a type combination outside those the
claims exercise. -/
def cmpCellLit : CellValue → FilterLit → Option Ordering
  | .null, _ => none
  | .int i, .num f => cmpFloat (.finite (mkRat i 1)) f
  | .float g, .num f => cmpFloat g f
  | .str s, .str v => some (cmpVia s v)
  | _, _ => none

/-- Does an `Ordering` outcome satisfy a comparison operator? -/
def ordSat (op : FilterOp) (o : Ordering) : Bool :=
  match op with
  | .eq => o = .eq
  | .ne => o ≠ .eq
  | .gt => o = .gt
  | .ge => o ≠ .lt
  | .lt => o = .lt
  | .le => o ≠ .gt
  | .contains => false

/-- Evaluate a filter predicate on one cell; rows whose predicate is not
`true` (including NULL comparisons) are dropped. -/
def evalFilterPred (p : FilterPred) (cell : CellValue) : Bool :=
  match p with
  | .cmp op lit =>
    match cmpCellLit cell lit with
    | some o => ordSat op o
    | none => false
  | .like pat =>
    match cell with
    | .str s => likeMatch pat.data s.data
    | _ => false

/-- `build_aggregation_expr` (src/utils/helpers.rs lines 30-46): the output
column is named by the alias when present, and by DataFusion's
`"<func>(<column>)"` display of the aggregate expression otherwise. -/
def aggFuncName : AggFunc → String
  | .sum => "sum"
  | .avg => "avg"
  | .max => "max"
  | .min => "min"
  | .count => "count"

/-- Output column name of one aggregation. -/
def agg_output_name (agg : Aggregation) : String :=
  agg.aliasName.getD (aggFuncName agg.function ++ "(" ++ agg.column ++ ")")

/-- Value of one aggregation function over the cells of the aggregated
column within one group.  Models DataFusion's ignore-nulls semantics:
`Count` counts non-null cells, `Sum`/`Avg`/`Max`/`Min` skip null cells and
yield null on all-null input. -/
def agg_value (f : AggFunc) (cells : List CellValue) : CellValue :=
  let nn := cells.filter fun c =>
    match c with
    | .null => false
    | _ => true
  match f with
  | .count => .int nn.length
  | .sum =>
    match nn.mapM (fun c => match c with | .int i => some i | _ => none) with
    | some is => if nn.isEmpty then .null else .int (is.foldl (· + ·) 0)
    | none =>
      match nn.mapM (fun c =>
          match c with
          | .int i => some (mkRat i 1)
          | .float (.finite q) => some q
          | _ => none) with
      | some qs => .float (.finite (qs.foldl ratAdd 0))
      | none => .null
  | .avg =>
    match nn.mapM (fun c =>
        match c with
        | .int i => some (mkRat i 1)
        | .float (.finite q) => some q
        | _ => none) with
    | some qs =>
      if qs.isEmpty then .null
      else .float (.finite (ratDiv (qs.foldl ratAdd 0) (mkRat qs.length 1)))
    | none => .null
  | .max =>
    nn.foldl (fun acc c =>
      match acc with
      | .null => c
      | a => if cellCmp c a = .gt then c else a) .null
  | .min =>
    nn.foldl (fun acc c =>
      match acc with
      | .null => c
      | a => if cellCmp c a = .lt then c else a) .null

/-! ### Operation Pipeline Executor (src/server/executor.rs) -/

/-- Modelled from the spec: `col_escaped` is imported by
src/server/executor.rs from src/utils/helpers.rs but its definition is not
under src/.  Per spec §4.3 it treats the column name as a single literal
identifier (quoted/escaped, never parsed as a path or operator token); in
this embedding a column reference is therefore the literal name, resolved
by exact lookup in the schema. -/
def col_escaped (name : String) : String := name

/-- Schema error DataFusion raises when an operation references an absent
column. -/
def noFieldError (name : String) : DfError :=
  .schema ("No field named " ++ name ++ ".")

/-- `Select` arm: project onto exactly the named columns, in the given
order; plan-time schema error if any name is absent. -/
def select_table (t : Table) (columns : List String) : Except DfError Table :=
  match mapExcept (fun c =>
      match colIdx t.header (col_escaped c) with
      | some j => .ok j
      | none => .error (noFieldError c)) columns with
  | .error e => .error e
  | .ok idxs => .ok ⟨columns, t.rows.map fun r => idxs.map fun j => cellAt r j⟩

/-- `Filter` arm: build the predicate with `build_filter_expr`, then keep
exactly the rows satisfying it, in their prior relative order. -/
def filter_table (t : Table) (column : String) (operator : FilterOp) (value : String) :
    Except DfError Table :=
  match build_filter_expr column operator value with
  | .error e => .error e
  | .ok expr =>
    match colIdx t.header expr.column with
    | none => .error (noFieldError expr.column)
    | some j => .ok ⟨t.header, t.rows.filter fun r => evalFilterPred expr.pred (cellAt r j)⟩

/-- First-occurrence deduplication of the group keys. -/
def dedupFirst (l : List (List CellValue)) : List (List CellValue) :=
  l.foldl (fun acc k => if k ∈ acc then acc else acc ++ [k]) []

/-- `GroupBy` arm (src/server/executor.rs lines 147-168): the two
emptiness validations, in source order, then partition by the tuple of
group-column values and emit one row per distinct key (first-occurrence
order), group columns first, one aggregation column each after. -/
def group_by_table (t : Table) (columns : List String) (aggregations : List Aggregation) :
    Except DfError Table :=
  if columns.isEmpty then
    .error (.plan "GroupBy requires at least one column to group by")
  else if aggregations.isEmpty then
    .error (.plan "GroupBy requires at least one aggregation function (e.g., SUM, AVG, COUNT)")
  else
    match mapExcept (fun c =>
        match colIdx t.header (col_escaped c) with
        | some j => .ok j
        | none => .error (noFieldError c)) columns with
    | .error e => .error e
    | .ok gidxs =>
      match mapExcept (fun (agg : Aggregation) =>
          match colIdx t.header agg.column with
          | some j => .ok (j, agg.function)
          | none => .error (noFieldError agg.column)) aggregations with
      | .error e => .error e
      | .ok aidxs =>
        let keyOf := fun (r : List CellValue) => gidxs.map fun j => cellAt r j
        let keys := dedupFirst (t.rows.map keyOf)
        let outRows := keys.map fun k =>
          let grp := t.rows.filter fun r => keyOf r = k
          k ++ aidxs.map fun ja => agg_value ja.2 (grp.map fun r => cellAt r ja.1)
        .ok ⟨columns ++ aggregations.map agg_output_name, outRows⟩

/-- Row comparator of the `Sort` arm: by the cell in column `j`, direction
`ascending`, and — because src/server/executor.rs passes `nulls_first =
true` to `Expr::sort` in both branches — null cells ordered before every
non-null cell regardless of direction. -/
def rowLe (j : Nat) (ascending : Bool) (r₁ r₂ : List CellValue) : Bool :=
  match cellAt r₁ j, cellAt r₂ j with
  | .null, _ => true
  | _, .null => false
  | a, b => leOfCmp (if ascending then cellCmp a b else cellCmp b a)

/-- Stable insertion of `a` into `l`: `a` is placed before the first
element not `le`-below it, hence after every earlier element it ties
with. -/
def insertLe (le : α → α → Bool) (a : α) : List α → List α
  | [] => [a]
  | b :: l => if le a b then a :: b :: l else b :: insertLe le a l

/-- Stable insertion sort; models the stable sort the Arrow sort kernel
performs for a single sort expression. -/
def insertionSort (le : α → α → Bool) : List α → List α
  | [] => []
  | a :: l => insertLe le a (insertionSort le l)

/-- `Sort` arm: stable sort of the rows by the named column with the
`rowLe` comparator; plan-time schema error if the column is absent. -/
def sort_table (t : Table) (column : String) (ascending : Bool) : Except DfError Table :=
  match colIdx t.header (col_escaped column) with
  | none => .error (noFieldError column)
  | some j => .ok ⟨t.header, insertionSort (rowLe j ascending) t.rows⟩

/-- `Limit` arm: `df.limit(0, Some(count))` keeps the first `count` rows;
never an error, even when `count` exceeds the row count. -/
def limit_table (t : Table) (count : Nat) : Except DfError Table :=
  .ok ⟨t.header, t.rows.take count⟩

/-- Modelled from DataFusion's `DataFrame::with_column` as the spec
describes it: the expression is evaluated once per row (`g`); if a column
named `name` already exists it is replaced in place at its position,
otherwise the new column is appended after all existing columns. -/
def with_column (t : Table) (name : String) (g : List CellValue → CellValue) : Table :=
  match colIdx t.header name with
  | some j => ⟨t.header, t.rows.map fun r => r.set j (g r)⟩
  | none => ⟨t.header ++ [name], t.rows.map fun r => r ++ [g r]⟩

/-- One elementwise arithmetic step of a `Transform` on a finite double
(integer cells are coerced); division by zero follows IEEE `f64`:
`0/0 = NaN`, otherwise a signed infinity. -/
def transform_float (op : TransformOp) (a : ℚ) (v : ℚ) : FloatVal :=
  match op with
  | .multiply => .finite (ratMul a v)
  | .add => .finite (ratAdd a v)
  | .subtract => .finite (ratSub a v)
  | .divide =>
    if v = 0 then
      if a = 0 then .nan else if 0 < a then .inf else .negInf
    else .finite (ratDiv a v)

/-- Elementwise `Transform` on one cell: null propagates, numeric cells
are computed as doubles, non-finite operands propagate per IEEE
(sign-aware for the directed infinities). -/
def transform_cell (op : TransformOp) (v : ℚ) : CellValue → CellValue
  | .null => .null
  | .int i => .float (transform_float op (mkRat i 1) v)
  | .float (.finite a) => .float (transform_float op a v)
  | .float .nan => .float .nan
  | .float .inf =>
    .float (match op with
      | .multiply => if 0 < v then .inf else if v < 0 then .negInf else .nan
      | .divide => if v < 0 then .negInf else .inf
      | .add => .inf
      | .subtract => .inf)
  | .float .negInf =>
    .float (match op with
      | .multiply => if 0 < v then .negInf else if v < 0 then .inf else .nan
      | .divide => if v < 0 then .inf else .negInf
      | .add => .negInf
      | .subtract => .negInf)
  | c => c

/-- Is every cell of column `j` numeric (or null)?  DataFusion's plan-time
type coercion rejects arithmetic between a non-numeric column and a float
literal. -/
def columnNumeric (t : Table) (j : Nat) : Bool :=
  t.rows.all fun r =>
    match cellAt r j with
    | .null => true
    | .int _ => true
    | .float _ => true
    | _ => false

/-- `Transform` arm: build `col op value` and store it with `with_column`
under the alias. -/
def transform_table (t : Table) (column : String) (operation : TransformOp) (value : ℚ)
    (aliasName : String) : Except DfError Table :=
  match colIdx t.header (col_escaped column) with
  | none => .error (noFieldError column)
  | some j =>
    if columnNumeric t j then
      .ok (with_column t aliasName fun r => transform_cell operation value (cellAt r j))
    else .error (.plan ("Cannot coerce arithmetic expression " ++ column))

/-- `QueryExecutor::apply_operation` (src/server/executor.rs lines
133-199): dispatch on the operation variant. -/
def apply_operation (t : Table) (op : Operations) : Except DfError Table :=
  match op with
  | .select columns => select_table t columns
  | .filter column operator value => filter_table t column operator value
  | .groupBy columns aggregations => group_by_table t columns aggregations
  | .sort column ascending => sort_table t column ascending
  | .transform column operation value aliasName =>
    transform_table t column operation value aliasName
  | .limit count => limit_table t count

/-- `QueryExecutor::execute_operations` (src/server/executor.rs lines
69-112): fold the operations over the table in list order, stopping at the
first failure (`?` in the loop body). -/
def execute_operations (t : Table) : List Operations → Except DfError Table
  | [] => .ok t
  | op :: ops =>
    match apply_operation t op with
    | .error e => .error e
    | .ok t2 => execute_operations t2 ops

/-! ### Result Encoder (src/utils/helpers.rs lines 109-223) -/

/-- `extract_typed_value`: null check first, then by cell type; integers,
booleans and strings convert directly, while a float goes through
`serde_json::Number::from_f64`, which yields `None` on a non-finite double
and so raises `DataFusionError("Invalid float value")`. -/
def extract_typed_value : CellValue → Except DoubledeckerError JsonValue
  | .null => .ok .null
  | .int i => .ok (.num (mkRat i 1))
  | .float (.finite q) => .ok (.num q)
  | .float _ => .error (.dataFusionError "Invalid float value")
  | .bool b => .ok (.bool b)
  | .str s => .ok (.str s)

/-- One encoded row of a batch: `extract_typed_value` on each column's
cell at the row index, in column order, stopping at the first error. -/
def encode_row (batch : RecordBatch) (i : Nat) : Except DoubledeckerError (List JsonValue) :=
  mapExcept (fun col => extract_typed_value (cellAt col i)) batch.columns

/-- All encoded rows of one batch, in row order. -/
def encode_batch (batch : RecordBatch) : Except DoubledeckerError (List (List JsonValue)) :=
  mapExcept (fun i => encode_row batch i) (List.range batch.numRows)

/-- `parse_batch_to_json` (src/utils/helpers.rs lines 190-223): empty batch
list short-circuits to an empty response; otherwise the column names come
from the first batch's schema and the rows are the concatenation of every
batch's encoded rows, failing on the first cell that fails to encode. -/
def parse_batch_to_json (batches : List RecordBatch) : Except DoubledeckerError QueryResponse :=
  match batches with
  | [] => .ok ⟨[], []⟩
  | b0 :: _ =>
    match mapExcept encode_batch batches with
    | .error e => .error e
    | .ok rowsPerBatch => .ok ⟨b0.schema, rowsPerBatch.flatten⟩

/-- The record batch carrying a table's schema and columns. -/
def table_batch (t : Table) : RecordBatch :=
  ⟨t.header, (List.range t.header.length).map fun j => t.rows.map fun r => cellAt r j,
    t.rows.length⟩

/-- The batches `df.collect()` yields for a table: a single batch carrying
the table's schema and its columns. -/
def table_to_batches (t : Table) : List RecordBatch :=
  [table_batch t]

/-- The engine slice of `execute_query` (src/server/core.rs lines
110-127): run the pipeline — wrapping an executor failure into
`DoubledeckerError::QueryExecution(e.to_string())` — then encode the
collected batches with `parse_batch_to_json`, whose own failure propagates
unchanged via `?`. -/
def run_query (t : Table) (ops : List Operations) : Except DoubledeckerError QueryResponse :=
  match execute_operations t ops with
  | .error e => .error (.queryExecution (dfErrorToString e))
  | .ok t2 => parse_batch_to_json (table_to_batches t2)

/-- Is the outcome an `InvalidQuery` error? -/
def isInvalidQueryError (r : Except DoubledeckerError QueryResponse) : Bool :=
  match r with
  | .error (.invalidQuery _) => true
  | _ => false

/-- The cells of the named column, if present. -/
def column_values (t : Table) (c : String) : Option (List CellValue) :=
  (colIdx t.header c).map fun j => t.rows.map fun r => cellAt r j

/-- Does every row of the table have exactly one cell per schema column? -/
def tableWF (t : Table) : Prop :=
  ∀ r ∈ t.rows, r.length = t.header.length

/-- Is the filter value free of the SQL `LIKE` wildcards? -/
def noWild (v : List Char) : Bool :=
  v.all fun c => !(c == '%' || c == '_')

/-! ### Concrete tables and pipelines used by witnesses and
counterexamples -/

/-- A one-cell table. -/
def tSmall : Table := ⟨["id"], [[.int 1]]⟩

/-- A GroupBy with both lists empty. -/
def gbEmpty : Operations := .groupBy [] []

/-- Three integer rows, one null, for the sort examples. -/
def tSortEx : Table := ⟨["a"], [[.int 2], [.null], [.int 1]]⟩

/-- Integer column for the filter-coercion examples. -/
def tFilterEx : Table := ⟨["n"], [[.int 5], [.int 7]]⟩

/-- One string row for the Contains examples. -/
def tContainsEx : Table := ⟨["name"], [[.str "a"]]⟩

/-- Two string rows, only the first containing `"ab"` literally. -/
def tContains2Ex : Table := ⟨["name"], [[.str "xaby"], [.str "xa by"]]⟩

/-- Three columns, two rows, for the projection examples. -/
def tSelectEx : Table := ⟨["x", "y", "z"], [[.int 1, .int 2, .int 3], [.int 4, .int 5, .int 6]]⟩

/-- Two numeric columns for the transform examples. -/
def tTransformEx : Table := ⟨["p", "q"], [[.int 1, .int 10], [.int 2, .int 20]]⟩

/-- Result of doubling column `p` of `tTransformEx` into the existing
column `q`. -/
def tTransformResEx : Table :=
  ⟨["p", "q"], [[.int 1, .float (.finite 2)], [.int 2, .float (.finite 4)]]⟩

/-- A table whose single cell is NaN. -/
def tNanEx : Table := ⟨["x"], [[.float .nan]]⟩

/-- Two well-formed record batches over the same schema. -/
def batchesEx : List RecordBatch :=
  [⟨["a", "b"], [[.int 1, .int 2], [.str "x", .null]], 2⟩,
   ⟨["a", "b"], [[.int 3], [.bool true]], 1⟩]

/-- The response `batchesEx` encodes to. -/
def respWidthEx : QueryResponse :=
  ⟨["a", "b"],
   [[.num 1, .str "x"], [.num 2, .null], [.num 3, .bool true]]⟩

end Doubledecker

/-! ## Lemmas -/

namespace Doubledecker

theorem leOfCmp_cmpVia {α : Type} [LinearOrder α] (a b : α) :
    leOfCmp (cmpVia a b) = true ↔ a ≤ b := by
  unfold cmpVia leOfCmp
  split_ifs with h1 h2
  · simp [le_of_lt h1]
  · simp [le_of_eq h2]
  · simp only [Bool.false_eq_true, false_iff]
    intro hle
    exact h1 (lt_of_le_of_ne hle h2)

theorem cmpVia_self {α : Type} [LinearOrder α] (a : α) : cmpVia a a = .eq := by
  unfold cmpVia
  simp

theorem cmpVia_eq_iff {α : Type} [LinearOrder α] (a b : α) :
    cmpVia a b = .eq ↔ a = b := by
  unfold cmpVia
  split_ifs with h1 h2
  · simp [ne_of_lt h1]
  · simp [h2]
  · simp [h2]

theorem mapExcept_ok_length {α β ε : Type} {f : α → Except ε β} :
    ∀ {l : List α} {l2 : List β}, mapExcept f l = .ok l2 → l2.length = l.length := by
  intro l
  induction l with
  | nil => intro l2 h; cases h; rfl
  | cons a as ih =>
    intro l2 h
    unfold mapExcept at h
    cases hfa : f a with
    | error e => rw [hfa] at h; cases h
    | ok b =>
      rw [hfa] at h
      cases hrest : mapExcept f as with
      | error e => rw [hrest] at h; cases h
      | ok bs =>
        rw [hrest] at h
        cases h
        simp [ih hrest]

theorem mapExcept_ok_mem {α β ε : Type} {f : α → Except ε β} :
    ∀ {l : List α} {l2 : List β}, mapExcept f l = .ok l2 →
      ∀ b ∈ l2, ∃ a ∈ l, f a = .ok b := by
  intro l
  induction l with
  | nil => intro l2 h; cases h; intro b hb; cases hb
  | cons a as ih =>
    intro l2 h
    unfold mapExcept at h
    cases hfa : f a with
    | error e => rw [hfa] at h; cases h
    | ok b0 =>
      rw [hfa] at h
      cases hrest : mapExcept f as with
      | error e => rw [hrest] at h; cases h
      | ok bs =>
        rw [hrest] at h
        cases h
        intro b hb
        rcases List.mem_cons.mp hb with hb | hb
        · exact ⟨a, List.mem_cons_self a as, hb ▸ hfa⟩
        · rcases ih hrest b hb with ⟨a2, ha2, hfa2⟩
          exact ⟨a2, List.mem_cons_of_mem a ha2, hfa2⟩

theorem mapExcept_error {α β ε : Type} {f : α → Except ε β} {e₀ : ε} :
    ∀ {l : List α}, (∀ a ∈ l, ∀ e, f a = .error e → e = e₀) →
      (∃ a ∈ l, ∃ e, f a = .error e) → mapExcept f l = .error e₀ := by
  intro l
  induction l with
  | nil => intro _ hex; rcases hex with ⟨a, ha, _⟩; cases ha
  | cons a as ih =>
    intro hall hex
    unfold mapExcept
    cases hfa : f a with
    | error e =>
      rw [hall a (List.mem_cons_self a as) e hfa]
    | ok b =>
      have hrest : mapExcept f as = .error e₀ := by
        apply ih
        · intro x hx e hx2
          exact hall x (List.mem_cons_of_mem a hx) e hx2
        · rcases hex with ⟨x, hx, e, hxe⟩
          rcases List.mem_cons.mp hx with rfl | hx
          · rw [hfa] at hxe; cases hxe
          · exact ⟨x, hx, e, hxe⟩
      rw [hrest]

theorem colIdx_mem : ∀ {l : List String} {c : String}, c ∈ l → (colIdx l c).isSome := by
  intro l
  induction l with
  | nil => intro c h; cases h
  | cons a as ih =>
    intro c h
    unfold colIdx
    by_cases hac : a = c
    · simp [hac]
    · rcases List.mem_cons.mp h with rfl | h
      · exact absurd rfl hac
      · have hrec := ih h
        rw [if_neg hac]
        cases hr : colIdx as c with
        | none => rw [hr] at hrec; cases hrec
        | some j => simp [hr]

theorem colIdx_not_mem : ∀ {l : List String} {c : String}, c ∉ l → colIdx l c = none := by
  intro l
  induction l with
  | nil => intro c _; rfl
  | cons a as ih =>
    intro c h
    unfold colIdx
    have hac : a ≠ c := fun hh => h (hh ▸ List.mem_cons_self a as)
    have hcs : c ∉ as := fun hh => h (List.mem_cons_of_mem a hh)
    simp [if_neg hac, ih hcs]

theorem colIdx_get : ∀ {l : List String} {c : String} {j : Nat},
    colIdx l c = some j → l.get? j = some c := by
  intro l
  induction l with
  | nil => intro c j h; cases h
  | cons a as ih =>
    intro c j h
    unfold colIdx at h
    by_cases hac : a = c
    · rw [if_pos hac] at h
      cases h
      simp [hac]
    · rw [if_neg hac] at h
      cases hrec : colIdx as c with
      | none => rw [hrec] at h; cases h
      | some j2 =>
        rw [hrec] at h
        cases h
        simpa using ih hrec

theorem colIdx_lt : ∀ {l : List String} {c : String} {j : Nat},
    colIdx l c = some j → j < l.length := by
  intro l c j h
  obtain ⟨hlt, _⟩ := List.get?_eq_some.mp (colIdx_get h)
  exact hlt

theorem mapExcept_error_mem {α β ε : Type} {f : α → Except ε β} {e : ε} :
    ∀ {l : List α}, mapExcept f l = .error e → ∃ a ∈ l, f a = .error e := by
  intro l
  induction l with
  | nil => intro h; cases h
  | cons a as ih =>
    intro h
    unfold mapExcept at h
    cases hfa : f a with
    | error e2 =>
      rw [hfa] at h
      cases h
      exact ⟨a, List.mem_cons_self a as, hfa⟩
    | ok b =>
      rw [hfa] at h
      cases hrest : mapExcept f as with
      | error e2 =>
        rw [hrest] at h
        cases h
        rcases ih hrest with ⟨x, hx, hxe⟩
        exact ⟨x, List.mem_cons_of_mem a hx, hxe⟩
      | ok bs => rw [hrest] at h; cases h

theorem extract_typed_value_error_unique {c : CellValue} {e : DoubledeckerError}
    (h : extract_typed_value c = .error e) : e = .dataFusionError "Invalid float value" := by
  cases c with
  | float f => cases f <;> simp_all [extract_typed_value]
  | _ => simp_all [extract_typed_value]

theorem encode_row_error_unique {b : RecordBatch} {i : Nat} {e : DoubledeckerError}
    (h : encode_row b i = .error e) : e = .dataFusionError "Invalid float value" := by
  rcases mapExcept_error_mem h with ⟨col, _, hcol⟩
  exact extract_typed_value_error_unique hcol

theorem encode_batch_error_unique {b : RecordBatch} {e : DoubledeckerError}
    (h : encode_batch b = .error e) : e = .dataFusionError "Invalid float value" := by
  rcases mapExcept_error_mem h with ⟨i, _, hi⟩
  exact encode_row_error_unique hi

theorem cmpVia_le_total {α : Type} [LinearOrder α] (a b : α) :
    (leOfCmp (cmpVia a b) || leOfCmp (cmpVia b a)) = true := by
  rcases le_total a b with h | h
  · simp [(leOfCmp_cmpVia a b).mpr h]
  · simp [(leOfCmp_cmpVia b a).mpr h]

theorem floatCmpT_le_trans {a b c : FloatVal} (h1 : leOfCmp (floatCmpT a b) = true)
    (h2 : leOfCmp (floatCmpT b c) = true) : leOfCmp (floatCmpT a c) = true := by
  cases a <;> cases b <;> cases c <;>
    simp_all [floatCmpT, floatRank, leOfCmp_cmpVia]
  exact le_trans h1 h2

theorem floatCmpT_le_total (a b : FloatVal) :
    (leOfCmp (floatCmpT a b) || leOfCmp (floatCmpT b a)) = true := by
  cases a <;> cases b <;> exact cmpVia_le_total _ _

theorem floatCmpT_refl (a : FloatVal) : floatCmpT a a = .eq := by
  cases a <;> simp [floatCmpT, floatRank, cmpVia_self]

theorem cellCmp_le_trans {a b c : CellValue} (h1 : leOfCmp (cellCmp a b) = true)
    (h2 : leOfCmp (cellCmp b c) = true) : leOfCmp (cellCmp a c) = true := by
  cases a <;> cases b <;> cases c <;>
    first
      | exact floatCmpT_le_trans h1 h2
      | (simp_all [cellCmp, cellRank, leOfCmp_cmpVia] <;> exact le_trans h1 h2)

theorem cellCmp_le_total (a b : CellValue) :
    (leOfCmp (cellCmp a b) || leOfCmp (cellCmp b a)) = true := by
  cases a <;> cases b <;>
    first
      | exact floatCmpT_le_total _ _
      | exact cmpVia_le_total _ _

theorem cellCmp_refl (a : CellValue) : cellCmp a a = .eq := by
  cases a <;> simp [cellCmp, cellRank, cmpVia_self, floatCmpT_refl]

theorem rowLe_trans {j : Nat} {ascending : Bool} {r1 r2 r3 : List CellValue}
    (h1 : rowLe j ascending r1 r2 = true) (h2 : rowLe j ascending r2 r3 = true) :
    rowLe j ascending r1 r3 = true := by
  unfold rowLe at h1 h2 ⊢
  cases hc1 : cellAt r1 j <;> cases hc2 : cellAt r2 j <;> cases hc3 : cellAt r3 j <;>
    rw [hc1, hc2] at h1 <;> rw [hc2, hc3] at h2 <;>
    simp_all <;>
    cases ascending <;> simp_all <;>
    first
      | exact cellCmp_le_trans h2 h1
      | exact cellCmp_le_trans h1 h2

theorem rowLe_total (j : Nat) (ascending : Bool) (r1 r2 : List CellValue) :
    (rowLe j ascending r1 r2 || rowLe j ascending r2 r1) = true := by
  unfold rowLe
  cases hc1 : cellAt r1 j <;> cases hc2 : cellAt r2 j <;>
    cases ascending <;> simp_all <;>
    first
      | rfl
      | (rcases Bool.or_eq_true_iff.mp (cellCmp_le_total (cellAt r1 j) (cellAt r2 j)) with h | h
         <;> simp_all [hc1, hc2])

theorem rowLe_null_right {j : Nat} {ascending : Bool} {r1 r2 : List CellValue}
    (h : rowLe j ascending r1 r2 = true) (h2 : cellAt r2 j = .null) :
    cellAt r1 j = .null := by
  unfold rowLe at h
  cases hc1 : cellAt r1 j <;> rw [hc1, h2] at h <;> simp_all

theorem rowLe_of_cell_eq {j : Nat} {ascending : Bool} {r1 r2 : List CellValue}
    (h : cellAt r1 j = cellAt r2 j) : rowLe j ascending r1 r2 = true := by
  unfold rowLe
  rw [h]
  cases hc : cellAt r2 j <;> simp [cellCmp_refl, leOfCmp]

theorem insertLe_perm {α : Type} (le : α → α → Bool) (a : α) :
    ∀ l : List α, List.Perm (insertLe le a l) (a :: l) := by
  intro l
  induction l with
  | nil => exact List.Perm.refl _
  | cons b l ih =>
    unfold insertLe
    by_cases h : le a b = true
    · rw [if_pos h]
    · rw [if_neg h]
      exact (ih.cons b).trans (List.Perm.swap a b l)

theorem insertionSort_perm {α : Type} (le : α → α → Bool) :
    ∀ l : List α, List.Perm (insertionSort le l) l := by
  intro l
  induction l with
  | nil => exact List.Perm.refl _
  | cons a l ih =>
    exact (insertLe_perm le a (insertionSort le l)).trans (ih.cons a)

theorem mem_insertLe {α : Type} {le : α → α → Bool} {a x : α} {l : List α} :
    x ∈ insertLe le a l ↔ x = a ∨ x ∈ l := by
  have := (insertLe_perm le a l).mem_iff (a := x)
  simpa using this

theorem insertLe_pairwise {α : Type} {le : α → α → Bool}
    (htrans : ∀ x y z, le x y = true → le y z = true → le x z = true)
    (htotal : ∀ x y, (le x y || le y x) = true) (a : α) :
    ∀ {l : List α}, l.Pairwise (fun x y => le x y = true) →
      (insertLe le a l).Pairwise (fun x y => le x y = true) := by
  intro l
  induction l with
  | nil =>
    intro _
    simp [insertLe]
  | cons b l ih =>
    intro hp
    unfold insertLe
    by_cases h : le a b = true
    · rw [if_pos h]
      refine List.Pairwise.cons ?_ hp
      intro x hx
      rcases List.mem_cons.mp hx with rfl | hx
      · exact h
      · exact htrans a b x h (List.rel_of_pairwise_cons hp hx)
    · rw [if_neg h]
      have hba : le b a = true := by
        rcases Bool.or_eq_true_iff.mp (htotal a b) with h1 | h1
        · exact absurd h1 h
        · exact h1
      refine List.Pairwise.cons ?_ (ih (List.Pairwise.of_cons hp))
      intro x hx
      rcases mem_insertLe.mp hx with rfl | hx
      · exact hba
      · exact List.rel_of_pairwise_cons hp hx

theorem insertionSort_pairwise {α : Type} {le : α → α → Bool}
    (htrans : ∀ x y z, le x y = true → le y z = true → le x z = true)
    (htotal : ∀ x y, (le x y || le y x) = true) :
    ∀ l : List α, (insertionSort le l).Pairwise (fun x y => le x y = true) := by
  intro l
  induction l with
  | nil => simp [insertionSort]
  | cons a l ih => exact insertLe_pairwise htrans htotal a ih

theorem filter_insertLe_neg {α : Type} {le : α → α → Bool} {p : α → Bool} {a : α}
    (hpa : p a = false) :
    ∀ l : List α, (insertLe le a l).filter p = l.filter p := by
  intro l
  induction l with
  | nil => simp [insertLe, List.filter_cons, hpa]
  | cons b l ih =>
    unfold insertLe
    by_cases h : le a b = true
    · rw [if_pos h]
      simp [List.filter_cons, hpa]
    · rw [if_neg h]
      cases hpb : p b <;> simp [List.filter_cons, hpb, ih]

theorem filter_insertLe_pos {α : Type} {le : α → α → Bool} {p : α → Bool} {a : α}
    (hpa : p a = true) (hcompat : ∀ x, p x = true → le a x = true) :
    ∀ l : List α, (insertLe le a l).filter p = a :: l.filter p := by
  intro l
  induction l with
  | nil => simp [insertLe, List.filter_cons, hpa]
  | cons b l ih =>
    unfold insertLe
    by_cases h : le a b = true
    · rw [if_pos h]
      simp [List.filter_cons, hpa]
    · rw [if_neg h]
      have hpb : p b = false := by
        cases hpb : p b
        · rfl
        · exact absurd (hcompat b hpb) h
      simp [List.filter_cons, hpb, ih]

theorem insertionSort_filter {α : Type} {le : α → α → Bool} {p : α → Bool}
    (hcompat : ∀ x y, p x = true → p y = true → le x y = true) :
    ∀ l : List α, (insertionSort le l).filter p = l.filter p := by
  intro l
  induction l with
  | nil => rfl
  | cons a l ih =>
    show (insertLe le a (insertionSort le l)).filter p = _
    cases hpa : p a
    · rw [filter_insertLe_neg hpa, ih]
      simp [List.filter_cons, hpa]
    · rw [filter_insertLe_pos hpa (fun x hx => hcompat a x hpa hx), ih]
      simp [List.filter_cons, hpa]

theorem likeMatch_pct_nil : ∀ s, likeMatch ['%'] s = true := by
  intro s
  induction s with
  | nil => rfl
  | cons c t ih =>
    simp [likeMatch, anySuffix] at ih ⊢
    simp [ih]

theorem likeMatch_append_pct : ∀ {v : List Char}, noWild v = true →
    ∀ s, likeMatch (v ++ ['%']) s = prefB v s := by
  intro v
  induction v with
  | nil =>
    intro _ s
    simpa [prefB] using likeMatch_pct_nil s
  | cons a v2 ih =>
    intro hv s
    rw [noWild, List.all_cons] at hv
    obtain ⟨ha, hv2⟩ := Bool.and_eq_true_iff.mp hv
    have hpct : ¬(a = '%') := by
      intro hh
      subst hh
      simp at ha
    have hus : ¬(a = '_') := by
      intro hh
      subst hh
      simp at ha
    cases s with
    | nil => simp [likeMatch, prefB, hpct]
    | cons c t =>
      simp only [List.cons_append, likeMatch, if_neg hpct, if_neg hus, prefB, List.append_eq]
      rw [ih hv2 t]

theorem likeMatch_contains {v : List Char} (hv : noWild v = true) :
    ∀ t, likeMatch ('%' :: (v ++ ['%'])) t = subStrB v t := by
  intro t
  induction t with
  | nil =>
    simp only [likeMatch, anySuffix, subStrB, if_pos]
    exact likeMatch_append_pct hv []
  | cons c t ih =>
    simp only [likeMatch, anySuffix, if_pos] at ih ⊢
    rw [likeMatch_append_pct hv (c :: t), ih]
    rfl

theorem colIdx_append_of_mem : ∀ {l : List String} (l2 : List String) {c : String},
    c ∈ l → colIdx (l ++ l2) c = colIdx l c := by
  intro l
  induction l with
  | nil => intro l2 c h; cases h
  | cons a as ih =>
    intro l2 c h
    rw [List.cons_append]
    unfold colIdx
    by_cases hac : a = c
    · simp [hac]
    · rcases List.mem_cons.mp h with rfl | h
      · exact absurd rfl hac
      · simp [if_neg hac, ih l2 h]

theorem colIdx_append_self : ∀ {l : List String} {c : String},
    c ∉ l → colIdx (l ++ [c]) c = some l.length := by
  intro l
  induction l with
  | nil => intro c _; simp [colIdx]
  | cons a as ih =>
    intro c h
    have hac : a ≠ c := fun hh => h (hh ▸ List.mem_cons_self a as)
    have hcs : c ∉ as := fun hh => h (List.mem_cons_of_mem a hh)
    rw [List.cons_append]
    unfold colIdx
    simp [if_neg hac, ih hcs]

theorem cellAt_set_eq {r : List CellValue} {j : Nat} (hj : j < r.length) (v : CellValue) :
    cellAt (r.set j v) j = v := by
  unfold cellAt
  rw [List.getD_eq_getElem?_getD, List.getElem?_set_self (by simpa using hj)]
  rfl

theorem cellAt_set_ne {r : List CellValue} {i j : Nat} (hij : i ≠ j) (v : CellValue) :
    cellAt (r.set j v) i = cellAt r i := by
  unfold cellAt
  rw [List.getD_eq_getElem?_getD, List.getD_eq_getElem?_getD,
    List.getElem?_set_ne (fun hh => hij hh.symm)]

theorem cellAt_append_lt {r : List CellValue} {i : Nat} (h : i < r.length) (v : CellValue) :
    cellAt (r ++ [v]) i = cellAt r i := by
  unfold cellAt
  rw [List.getD_eq_getElem?_getD, List.getD_eq_getElem?_getD,
    List.getElem?_append_left h]

theorem cellAt_append_eq (r : List CellValue) (v : CellValue) :
    cellAt (r ++ [v]) r.length = v := by
  unfold cellAt
  rw [List.getD_eq_getElem?_getD]
  simp

theorem execute_operations_append (t : Table) (l₁ l₂ : List Operations) :
    execute_operations t (l₁ ++ l₂) =
      match execute_operations t l₁ with
      | .error e => .error e
      | .ok t2 => execute_operations t2 l₂ := by
  induction l₁ generalizing t with
  | nil => simp [execute_operations]
  | cons op ops ih =>
    rw [List.cons_append]
    simp only [execute_operations]
    cases h : apply_operation t op with
    | error e => simp
    | ok t2 => simpa using ih t2

end Doubledecker

/-! ## Claims -/

namespace Doubledecker

/-- C1 (corrected: the failure value carries the failing operation's error
but not its index): `execute_operations` applies the operations strictly
in list order — the table produced by the prefix is the sole input to the
next operation — and on the first operation that fails the whole call
fails with exactly that operation's error, the remaining operations never
run, and no partial table is returned. -/
theorem execute_operations_first_failure (t t1 : Table) (pre : List Operations)
    (op : Operations) (rest : List Operations)
    (hpre : execute_operations t pre = .ok t1) :
    (∀ e, apply_operation t1 op = .error e →
      execute_operations t (pre ++ op :: rest) = .error e) ∧
    (∀ t2, apply_operation t1 op = .ok t2 →
      execute_operations t (pre ++ op :: rest) = execute_operations t2 rest) := by
  constructor
  · intro e he
    rw [execute_operations_append, hpre]
    simp [execute_operations, he]
  · intro t2 h2
    rw [execute_operations_append, hpre]
    simp [execute_operations, h2]

/-- Witness for C1: in `[Limit 1, GroupBy [] [], Select ["id"]]` the
invalid GroupBy at index 1 aborts the pipeline with its own planning
error and the trailing Select never runs. -/
theorem execute_operations_first_failure_witness :
    execute_operations tSmall ([Operations.limit 1] ++ gbEmpty :: [Operations.select ["id"]]) =
      .error (.plan "GroupBy requires at least one column to group by") :=
  (execute_operations_first_failure tSmall tSmall [Operations.limit 1] gbEmpty
    [Operations.select ["id"]] (by decide)).1 _ (by decide)

/-- Counterexample for C1 as stated: the same failing operation at index 0
and at index 1 produces the identical failure value, so the error returned
by `execute_operations` does not include the failing operation's index. -/
theorem execute_operations_error_carries_no_index :
    execute_operations tSmall [gbEmpty] =
        .error (.plan "GroupBy requires at least one column to group by") ∧
      execute_operations tSmall [Operations.limit 1, gbEmpty] =
        .error (.plan "GroupBy requires at least one column to group by") := by
  decide

/-- C3 (corrected: the failures are DataFusion `Plan` errors that
src/server/core.rs surfaces as `QueryExecution`, not as the
`DoubledeckerError::InvalidQuery` variant): a GroupBy with an empty
columns list fails with the planning error "GroupBy requires at least one
column to group by", a GroupBy with an empty aggregations list fails with
the planning error "GroupBy requires at least one aggregation function
(e.g., SUM, AVG, COUNT)", the two conditions are checked independently
(each empty list alone triggers its failure, for every table and every
content of the other list), and the caller sees the failure as
`QueryExecution` wrapping the planning message. -/
theorem groupBy_empty_validation (t : Table) (aggs : List Aggregation) (cols : List String)
    (hcols : cols ≠ []) :
    apply_operation t (.groupBy [] aggs) =
        .error (.plan "GroupBy requires at least one column to group by") ∧
      apply_operation t (.groupBy cols []) =
        .error (.plan "GroupBy requires at least one aggregation function (e.g., SUM, AVG, COUNT)") ∧
      run_query t [.groupBy [] aggs] =
        .error (.queryExecution
          "Error during planning: GroupBy requires at least one column to group by") ∧
      run_query t [.groupBy cols []] =
        .error (.queryExecution
          "Error during planning: GroupBy requires at least one aggregation function (e.g., SUM, AVG, COUNT)") := by
  have hce : cols.isEmpty = false := by
    cases cols with
    | nil => exact absurd rfl hcols
    | cons c cs => rfl
  refine ⟨?_, ?_, ?_, ?_⟩
  · simp [apply_operation, group_by_table]
  · simp [apply_operation, group_by_table, hce]
  · simp only [run_query, execute_operations, apply_operation, group_by_table, List.isEmpty_nil,
      if_pos]
    rfl
  · simp only [run_query, execute_operations, apply_operation, group_by_table, hce]
    rfl

/-- Witness for C3: both validation failures observed on a concrete table
with a concrete nonempty other list. -/
theorem groupBy_empty_validation_witness :
    apply_operation tSmall (.groupBy [] [⟨.sum, "id", none⟩]) =
      .error (.plan "GroupBy requires at least one column to group by") :=
  (groupBy_empty_validation tSmall [⟨.sum, "id", none⟩] ["id"] (by decide)).1

/-- Counterexample for C3 as stated: the caller-visible failure for an
empty GroupBy columns list is `QueryExecution`, not `InvalidQuery`. -/
theorem groupBy_error_not_invalidQuery :
    run_query tSmall [gbEmpty] =
        .error (.queryExecution
          "Error during planning: GroupBy requires at least one column to group by") ∧
      isInvalidQueryError (run_query tSmall [gbEmpty]) = false := by
  decide

/-- C8: for every table whose schema contains columns `a` and `b`,
projecting onto `[a, b]` and then onto `[a]` produces exactly the table
that projecting onto `[a]` directly produces. -/
theorem select_compose (t : Table) (a b : String) (ha : a ∈ t.header) (hb : b ∈ t.header) :
    (select_table t [a, b]).bind (fun t1 => select_table t1 [a]) = select_table t [a] := by
  obtain ⟨ja, hja⟩ := Option.isSome_iff_exists.mp (colIdx_mem ha)
  obtain ⟨jb, hjb⟩ := Option.isSome_iff_exists.mp (colIdx_mem hb)
  simp only [select_table, mapExcept, hja, hjb, col_escaped, Except.bind]
  have h0 : colIdx [a, b] a = some 0 := by simp [colIdx]
  simp only [h0]
  simp [List.map_map, cellAt, Function.comp]

/-- Witness for C8 on a concrete three-column table. -/
theorem select_compose_witness :
    (select_table tSelectEx ["x", "y"]).bind (fun t1 => select_table t1 ["x"]) =
      select_table tSelectEx ["x"] :=
  select_compose tSelectEx "x" "y" (by decide) (by decide)

/-- C10: a pipeline result of zero record batches encodes to the
`QueryResponse` with empty `columns` and empty `rows`; the final schema's
column names are not reported. -/
theorem parse_batch_to_json_empty : parse_batch_to_json [] = .ok ⟨[], []⟩ := rfl

/-- C7: whenever the result encoder succeeds on batches that each carry
one array per column of the response's column list (as every
`df.collect()` result does), every row of the `QueryResponse` has exactly
as many values as the column-name list. -/
theorem query_response_rows_width (batches : List RecordBatch) (resp : QueryResponse)
    (h : parse_batch_to_json batches = .ok resp)
    (hwf : ∀ b ∈ batches, b.columns.length = resp.columns.length) :
    ∀ row ∈ resp.rows, row.length = resp.columns.length := by
  cases batches with
  | nil =>
    cases h
    intro row hrow
    cases hrow
  | cons b0 bs =>
    unfold parse_batch_to_json at h
    cases hm : mapExcept encode_batch (b0 :: bs) with
    | error e => rw [hm] at h; cases h
    | ok rowsPerBatch =>
      rw [hm] at h
      cases h
      intro row hrow
      rcases List.mem_flatten.mp hrow with ⟨batchRows, hbr, hrowIn⟩
      rcases mapExcept_ok_mem hm batchRows hbr with ⟨b, hb, henc⟩
      rcases mapExcept_ok_mem henc row hrowIn with ⟨i, _, hrowEnc⟩
      have hlen := mapExcept_ok_length hrowEnc
      rw [hlen]
      exact hwf b hb

/-- Witness for C7: the first row of the two-batch example has exactly the
response's column count. -/
theorem query_response_rows_width_witness :
    [JsonValue.num 1, JsonValue.str "x"].length = respWidthEx.columns.length :=
  query_response_rows_width batchesEx respWidthEx (by decide) (by decide)
    [JsonValue.num 1, JsonValue.str "x"] (by decide)

/-- C6: when the final table holds a non-finite float cell (NaN or a
directed infinity), the JSON encoding of the query result fails with the
explicit error `DataFusionError("Invalid float value")`, which the request
handler returns to the caller as the failure of the whole request — no
null or sentinel is emitted for the cell. -/
theorem nonfinite_float_encoding_fails (t : Table) (i j : Nat) (r : List CellValue)
    (f : FloatVal) (hr : t.rows.get? i = some r) (hc : r.get? j = some (.float f))
    (hj : j < t.header.length) (hf : f.isFinite = false) :
    run_query t [] = .error (.dataFusionError "Invalid float value") := by
  have hfx : extract_typed_value (.float f) = .error (.dataFusionError "Invalid float value") := by
    cases f with
    | finite q => simp [FloatVal.isFinite] at hf
    | _ => rfl
  have hi : i < t.rows.length := by
    obtain ⟨hlt, _⟩ := List.get?_eq_some.mp hr
    exact hlt
  rw [List.get?_eq_getElem?] at hr hc
  have hcolJ : (t.rows.map fun r2 => cellAt r2 j) ∈ (table_batch t).columns :=
    List.mem_map.mpr ⟨j, List.mem_range.mpr hj, rfl⟩
  have hcell : cellAt (t.rows.map fun r2 => cellAt r2 j) i = .float f := by
    unfold cellAt
    rw [List.getD_eq_getElem?_getD, List.getElem?_map, hr]
    simp only [Option.map_some', Option.getD_some]
    rw [List.getD_eq_getElem?_getD, hc]
    rfl
  have hrowErr : encode_row (table_batch t) i =
      .error (.dataFusionError "Invalid float value") := by
    apply mapExcept_error
    · intro col _ e he
      exact extract_typed_value_error_unique he
    · refine ⟨t.rows.map fun r2 => cellAt r2 j, hcolJ, ?_⟩
      rw [hcell]
      exact ⟨_, hfx⟩
  have hbatchErr : encode_batch (table_batch t) =
      .error (.dataFusionError "Invalid float value") := by
    apply mapExcept_error
    · intro i2 _ e he
      exact encode_row_error_unique he
    · exact ⟨i, List.mem_range.mpr hi, _, hrowErr⟩
  show parse_batch_to_json (table_to_batches t) = _
  unfold table_to_batches
  simp only [parse_batch_to_json, mapExcept, hbatchErr]

/-- Witness for C6: a single NaN cell fails the whole request with the
explicit error. -/
theorem nonfinite_float_encoding_fails_witness :
    run_query tNanEx [] = .error (.dataFusionError "Invalid float value") :=
  nonfinite_float_encoding_fails tNanEx 0 0 [.float .nan] .nan (by decide) (by decide)
    (by decide) rfl

/-- C9: for every well-formed table and every Transform on a present
numeric column, the result column holds the elementwise computation; when
the alias names an existing column that column is replaced in place — the
schema is unchanged and every other column's values are unchanged — and
otherwise the result is appended as a new last column with every existing
column's values unchanged. -/
theorem transform_frame_effect (t : Table) (column : String) (op : TransformOp)
    (value : ℚ) (aliasName : String) (j : Nat) (t2 : Table)
    (hwf : tableWF t) (hj : colIdx t.header column = some j)
    (h : transform_table t column op value aliasName = .ok t2) :
    column_values t2 aliasName =
        some (t.rows.map fun r => transform_cell op value (cellAt r j)) ∧
      (aliasName ∈ t.header →
        t2.header = t.header ∧
          ∀ c, c ≠ aliasName → column_values t2 c = column_values t c) ∧
      (aliasName ∉ t.header →
        t2.header = t.header ++ [aliasName] ∧
          ∀ c ∈ t.header, column_values t2 c = column_values t c) := by
  simp only [transform_table, col_escaped, hj] at h
  by_cases hnum : columnNumeric t j
  swap
  · rw [if_neg hnum] at h; cases h
  rw [if_pos hnum] at h
  cases h
  by_cases hmem : aliasName ∈ t.header
  · obtain ⟨ja, hja⟩ := Option.isSome_iff_exists.mp (colIdx_mem hmem)
    have hlt : ja < t.header.length := colIdx_lt hja
    unfold with_column
    rw [hja]
    refine ⟨?_, fun _ => ⟨rfl, ?_⟩, fun hnot => absurd hmem hnot⟩
    · simp only [column_values, hja, Option.map_some']
      congr 1
      rw [List.map_map]
      apply List.map_congr_left
      intro r hr
      exact cellAt_set_eq (by rw [hwf r hr]; exact hlt) _
    · intro c hc
      simp only [column_values]
      cases hci : colIdx t.header c with
      | none => rfl
      | some i =>
        have hne : i ≠ ja := by
          intro he
          have h1 := colIdx_get hci
          have h2 := colIdx_get hja
          rw [he, h2] at h1
          cases h1
          exact hc rfl
        simp only [Option.map_some']
        congr 1
        rw [List.map_map]
        apply List.map_congr_left
        intro r hr
        exact cellAt_set_ne hne _
  · have hnone := colIdx_not_mem hmem
    unfold with_column
    rw [hnone]
    refine ⟨?_, fun hyes => absurd hyes hmem, fun _ => ⟨rfl, ?_⟩⟩
    · simp only [column_values, colIdx_append_self hmem, Option.map_some']
      congr 1
      rw [List.map_map]
      apply List.map_congr_left
      intro r hr
      have hcell := cellAt_append_eq r (transform_cell op value (cellAt r j))
      rw [hwf r hr] at hcell
      exact hcell
    · intro c hc
      simp only [column_values, colIdx_append_of_mem [aliasName] hc]
      cases hci : colIdx t.header c with
      | none => rfl
      | some i =>
        simp only [Option.map_some']
        congr 1
        rw [List.map_map]
        apply List.map_congr_left
        intro r hr
        have hi : i < r.length := by rw [hwf r hr]; exact colIdx_lt hci
        exact cellAt_append_lt hi _

/-- C2 (corrected: src/server/executor.rs passes `nulls_first = true` in
both direction branches, so nulls sort BEFORE all non-null values, not
after): Sort on a present column is a stable sort by that column's value —
the output is a permutation of the input rows, sorted under the `rowLe`
comparator of the chosen direction, null cells placed before every
non-null cell regardless of the ascending flag, and rows with equal sort
keys keep their prior relative order. -/
theorem sort_semantics (t : Table) (c : String) (ascending : Bool) (j : Nat) (t2 : Table)
    (hj : colIdx t.header c = some j) (h : sort_table t c ascending = .ok t2) :
    t2.header = t.header ∧
      List.Perm t2.rows t.rows ∧
      t2.rows.Pairwise (fun r1 r2 => rowLe j ascending r1 r2 = true) ∧
      t2.rows.Pairwise (fun r1 r2 => cellAt r2 j = .null → cellAt r1 j = .null) ∧
      ∀ k, t2.rows.filter (fun r => cellAt r j == k) =
        t.rows.filter (fun r => cellAt r j == k) := by
  simp only [sort_table, col_escaped, hj] at h
  cases h
  have htrans : ∀ x y z : List CellValue, rowLe j ascending x y = true →
      rowLe j ascending y z = true → rowLe j ascending x z = true :=
    fun _ _ _ => rowLe_trans
  have htotal : ∀ x y : List CellValue,
      (rowLe j ascending x y || rowLe j ascending y x) = true :=
    fun x y => rowLe_total j ascending x y
  have hsorted := insertionSort_pairwise htrans htotal t.rows
  refine ⟨rfl, insertionSort_perm _ _, hsorted, hsorted.imp ?_, ?_⟩
  · intro r1 r2 hle hnull
    exact rowLe_null_right hle hnull
  · intro k
    apply insertionSort_filter
    intro x y hx hy
    exact rowLe_of_cell_eq (by rw [eq_of_beq hx, eq_of_beq hy])

/-- Witness for C2: sorting the example table ascending yields a
permutation of its rows (null row placed first). -/
theorem sort_semantics_witness :
    List.Perm [[CellValue.null], [CellValue.int 1], [CellValue.int 2]] tSortEx.rows :=
  (sort_semantics tSortEx "a" true 0 ⟨["a"], [[.null], [.int 1], [.int 2]]⟩
    (by decide) (by decide)).2.1

/-- Counterexample for C2 as stated: with rows `2, null, 1`, both the
ascending and the descending sort place the null row first, and the
ascending result is not the claimed nulls-last order. -/
theorem sort_nulls_first_not_last :
    sort_table tSortEx "a" true = .ok ⟨["a"], [[.null], [.int 1], [.int 2]]⟩ ∧
      sort_table tSortEx "a" false = .ok ⟨["a"], [[.null], [.int 2], [.int 1]]⟩ ∧
      sort_table tSortEx "a" true ≠ .ok ⟨["a"], [[.int 1], [.int 2], [.null]]⟩ := by
  decide

/-- C4: `build_filter_expr` tries the value as a floating-point parse
first — whenever it parses, the comparison depends only on the parsed
number, so two value strings parsing to the same number (such as "5" and
"5.0") filter identically on every table; when the parse fails, the
comparison, on a string cell, is the lexical string comparison against the
raw value. -/
theorem filter_value_coercion (t : Table) (c : String) (j : Nat) (op : FilterOp)
    (v w : String) (hop : op ≠ .contains) (hj : colIdx t.header c = some j) :
    ((parse_f64 v).isSome → parse_f64 v = parse_f64 w →
      filter_table t c op v = filter_table t c op w) ∧
    (parse_f64 v = none →
      filter_table t c op v =
        .ok ⟨t.header, t.rows.filter fun r =>
          match cellAt r j with
          | .str s => ordSat op (cmpVia s v)
          | _ => false⟩) := by
  cases op with
  | contains => exact absurd rfl hop
  | _ =>
    refine ⟨?_, ?_⟩
    · intro hsome hvw
      obtain ⟨f, hf⟩ := Option.isSome_iff_exists.mp hsome
      have hw : parse_f64 w = some f := by rw [← hvw]; exact hf
      simp only [filter_table, build_filter_expr, hf, hw]
    · intro hnone
      simp only [filter_table, build_filter_expr, hnone, hj]
      congr 2
      apply List.filter_congr
      intro r _
      cases hcell : cellAt r j <;> rfl

/-- Witness for C4: on an integer column, Filter Eq with "5" and "5.0"
match the same cells, namely the cell holding 5. -/
theorem filter_value_coercion_witness :
    filter_table tFilterEx "n" .eq "5" = filter_table tFilterEx "n" .eq "5.0" ∧
      filter_table tFilterEx "n" .eq "5" = .ok ⟨["n"], [[.int 5]]⟩ :=
  ⟨(filter_value_coercion tFilterEx "n" 0 .eq "5" "5.0" (by decide) (by decide)).1
      (by decide) (by decide),
    by decide⟩

/-- C5 (corrected: the value is spliced into the `LIKE` pattern without
escaping, so `%` and `_` act as wildcards; literal substring containment
holds exactly for wildcard-free values): on a string column, Filter
Contains keeps exactly the rows whose cell matches the SQL `LIKE` pattern
`%value%`, which — for every value containing no `%` and no `_` — is
exactly the rows whose cell contains the value as a case-sensitive
literal substring. -/
theorem filter_contains_semantics (t : Table) (c : String) (j : Nat) (v : String)
    (hj : colIdx t.header c = some j) (hv : noWild v.data = true) :
    filter_table t c .contains v =
      .ok ⟨t.header, t.rows.filter fun r =>
        match cellAt r j with
        | .str s => specContains v s
        | _ => false⟩ := by
  simp only [filter_table, build_filter_expr, hj]
  congr 2
  apply List.filter_congr
  intro r _
  cases hcell : cellAt r j with
  | str s =>
    simp only [evalFilterPred, specContains]
    have hdata : ("%" ++ v ++ "%").data = '%' :: (v.data ++ ['%']) := by
      rw [String.data_append, String.data_append]
      rfl
    rw [hdata, likeMatch_contains hv]
  | _ => rfl

/-- Witness for C5: filtering for the literal substring "ab" keeps exactly
the row whose string contains it. -/
theorem filter_contains_semantics_witness :
    filter_table tContains2Ex "name" .contains "ab" =
        .ok ⟨["name"], tContains2Ex.rows.filter fun r =>
          match cellAt r 0 with
          | .str s => specContains "ab" s
          | _ => false⟩ ∧
      filter_table tContains2Ex "name" .contains "ab" = .ok ⟨["name"], [[.str "xaby"]]⟩ :=
  ⟨filter_contains_semantics tContains2Ex "name" 0 "ab" (by decide) (by decide), by decide⟩

/-- Counterexample for C5 as stated: with value `"_"` the filter keeps the
row `"a"`, which does not contain `"_"` as a literal substring — the
unescaped `_` matched an arbitrary character. -/
theorem filter_contains_wildcard_leaks :
    filter_table tContainsEx "name" .contains "_" = .ok ⟨["name"], [[.str "a"]]⟩ ∧
      specContains "_" "a" = false := by
  decide

/-- Witness for C9: doubling column `p` into the existing alias `q`
replaces `q` in place. -/
theorem transform_frame_effect_witness :
    column_values tTransformResEx "q" =
      some (tTransformEx.rows.map fun r => transform_cell .multiply 2 (cellAt r 0)) :=
  (transform_frame_effect tTransformEx "p" .multiply 2 "q" 0 tTransformResEx
    (by unfold tableWF; decide) (by decide) (by decide)).1

end Doubledecker
